/-
Verification of the tekore model serialization core.

The repository's serialization core (`tekore/_model/serialise.py`: `Model`,
`ModelList`, `StrEnum`, `Timestamp`, `JSONEncoder`,
`UnknownModelAttributeWarning`) is exercised by `tests/model.py` and used by
the schema modules (`tekore/_model/category.py`, `tekore/_model/album/full.py`).
The implementation module itself is not part of the excerpt, so the
definitions below are modelled from the specification's description of the
core, constrained everywhere by the behavior the tests pin down.

Machine integers do not occur: all quantities are dates, string lengths and
list shapes, modelled with `Nat`/`Int` directly.
-/
import Mathlib

deriving instance DecidableEq for Except

namespace Tekore

/-! ### Timestamp

Modelled from the spec: `Timestamp.from_string` parses the exact form
`YYYY-MM-DDTHH:MM:SS[.ffffff]Z` (fractional seconds optional, 1-6 digits
accepted, UTC designator mandatory) and `str(timestamp)` formats it back.
-/

/-- Modelled from the spec: the error raised by `Timestamp.from_string` when
the text does not match the accepted grammar (`FormatError`; the Python
implementation raises `ValueError`). -/
inductive FormatError where
  | invalidFormat
deriving DecidableEq, Repr

/-- Numeric value of a decimal digit character. -/
def digitVal (c : Char) : Nat := c.toNat - 48

/-- The decimal digit character for `n < 10`. -/
def digitChar (n : Nat) : Char := Char.ofNat (48 + n)

/-- Decimal digit test, the character class `[0-9]` used by `strptime`. -/
def isDig (c : Char) : Bool := 48 ≤ c.toNat && c.toNat ≤ 57

/-- Read exactly `w` decimal digits, folding them onto accumulator `acc`;
fail on any non-digit.  Models the fixed-width numeric fields of the
timestamp grammar. -/
def readFixed : Nat → Nat → List Char → Except FormatError (Nat × List Char)
  | 0, acc, cs => .ok (acc, cs)
  | _ + 1, _, [] => .error .invalidFormat
  | w + 1, acc, c :: tl =>
    if isDig c then readFixed w (10 * acc + digitVal c) tl
    else .error .invalidFormat

/-- Consume one expected literal character. -/
def litChar (c : Char) : List Char → Except FormatError (List Char)
  | [] => .error .invalidFormat
  | d :: tl => if d = c then .ok tl else .error .invalidFormat

/-- The number denoted by a list of decimal digit characters. -/
def digitsToNat (ds : List Char) : Nat :=
  ds.foldl (fun a c => 10 * a + digitVal c) 0

/-- Zero-padded fixed-width decimal rendering (`w` characters). -/
def padDigits : Nat → Nat → List Char
  | 0, _ => []
  | w + 1, v => digitChar (v / 10 ^ w) :: padDigits w (v % 10 ^ w)

/-- Modelled from the spec: the tail of the timestamp grammar after the
seconds field — either the literal `Z`, or `.` followed by 1-6 fractional
digits and `Z`.  Returns the microsecond value: fewer than six digits scale
up, as with `strptime`'s `%f`. -/
def readTail : List Char → Except FormatError (Nat × List Char)
  | [] => .error .invalidFormat
  | c :: tl =>
    if c = 'Z' then .ok (0, tl)
    else if c = '.' then
      let ds := tl.takeWhile isDig
      let r := tl.dropWhile isDig
      if 1 ≤ ds.length ∧ ds.length ≤ 6 then
        match litChar 'Z' r with
        | .ok r2 => .ok (digitsToNat ds * 10 ^ (6 - ds.length), r2)
        | .error e => .error e
      else .error .invalidFormat
    else .error .invalidFormat

/-- Modelled from the spec: a timestamp is "an immutable instant",
"internally represented as a timezone-aware instant at UTC"; the instant is
determined by its calendar fields at microsecond precision. -/
structure Timestamp where
  year : Nat
  month : Nat
  day : Nat
  hour : Nat
  minute : Nat
  second : Nat
  microsecond : Nat
deriving DecidableEq, Repr

/-- Modelled from the spec: `Timestamp.from_string` over the character list —
date, literal `T`, time, optional fraction, literal `Z`, nothing after. -/
def parseChars (cs : List Char) : Except FormatError Timestamp := do
  let (y, cs) ← readFixed 4 0 cs
  let cs ← litChar '-' cs
  let (mo, cs) ← readFixed 2 0 cs
  let cs ← litChar '-' cs
  let (d, cs) ← readFixed 2 0 cs
  let cs ← litChar 'T' cs
  let (h, cs) ← readFixed 2 0 cs
  let cs ← litChar ':' cs
  let (mi, cs) ← readFixed 2 0 cs
  let cs ← litChar ':' cs
  let (sec, cs) ← readFixed 2 0 cs
  let (us, cs) ← readTail cs
  if cs = [] ∧ 1 ≤ y ∧ 1 ≤ mo ∧ mo ≤ 12 ∧ 1 ≤ d ∧ d ≤ 31 ∧ h ≤ 23 ∧ mi ≤ 59 ∧ sec ≤ 59 then
    .ok ⟨y, mo, d, h, mi, sec, us⟩
  else
    .error .invalidFormat

/-- Modelled from the spec: `Timestamp.from_string(text)`, failing with a
`FormatError` when `text` does not match the accepted grammar. -/
def Timestamp.fromString (s : String) : Except FormatError Timestamp :=
  parseChars s.toList

/-- The formatted fractional part: nothing when the microsecond field is
zero, otherwise `.` plus six digits — formatting must not introduce or lose
trailing zero-padding beyond what typed precision requires. -/
def fracChars (us : Nat) : List Char :=
  if us = 0 then ['Z'] else '.' :: (padDigits 6 us ++ ['Z'])

/-- Modelled from the spec: `str(timestamp)` over character lists. -/
def formatChars (t : Timestamp) : List Char :=
  padDigits 4 t.year ++ '-' :: (padDigits 2 t.month ++ '-' :: (padDigits 2 t.day
    ++ 'T' :: (padDigits 2 t.hour ++ ':' :: (padDigits 2 t.minute
    ++ ':' :: (padDigits 2 t.second ++ fracChars t.microsecond)))))

/-- Modelled from the spec: `str(timestamp)`, the round-trip string form. -/
def Timestamp.toText (t : Timestamp) : String := String.mk (formatChars t)

/-- The calendar-field ranges every parsed timestamp satisfies. -/
def Timestamp.InRange (t : Timestamp) : Prop :=
  1 ≤ t.year ∧ t.year ≤ 9999 ∧ 1 ≤ t.month ∧ t.month ≤ 12 ∧ 1 ≤ t.day ∧ t.day ≤ 31
    ∧ t.hour ≤ 23 ∧ t.minute ≤ 59 ∧ t.second ≤ 59 ∧ t.microsecond < 1000000

/-- The run of fractional digits of a timestamp string: the digits right
after the first `.`. -/
def fracRun (s : String) : List Char :=
  ((s.toList.dropWhile (fun c => c != '.')).drop 1).takeWhile isDig

/-- The string form `str(member)` of a plain standard-library `Enum`
member: `EnumName.memberName`. -/
def plainEnumStr (enumName memberName : String) : String :=
  enumName ++ "." ++ memberName







/-! ### Case-insensitive string enumeration (`StrEnum`)

Modelled from the spec: an enumeration is a declared, ordered list of
`(name, value)` pairs; lookup-by-name ignores case, payloads are never
case-folded, membership testing compares values case-insensitively. -/

/-- Character-wise lowercasing (Python's `str.lower` on the ASCII names
and values involved), the normalization used for case-insensitive
comparison.  Payloads are never stored lowercased. -/
def strLower (s : String) : String := String.mk (s.toList.map Char.toLower)

/-- Modelled from the spec: the "no such member" failure of
lookup-by-name (`UnknownEnumerationName`; Python raises `KeyError`). -/
inductive UnknownEnumerationName where
  | noSuchMember (key : String)
deriving DecidableEq, Repr

namespace StrEnum

/-- Modelled from the spec: lookup-by-name returns the member whose name
matches the key case-insensitively, or fails with a "no such member"
error.  The declared pair is returned untouched. -/
def lookup (decl : List (String × String)) (key : String) :
    Except UnknownEnumerationName (String × String) :=
  match decl.find? (fun p => strLower p.1 = strLower key) with
  | some p => .ok p
  | none => .error (.noSuchMember key)

/-- Modelled from the spec: iterating the enumeration yields the declared
payloads, in declaration order, case unchanged. -/
def values (decl : List (String × String)) : List String :=
  decl.map Prod.snd

/-- Modelled from the spec: membership testing ("is this raw value one of
the declared values") succeeds regardless of the case used at declaration
time. -/
def containsValue (decl : List (String × String)) (raw : String) : Bool :=
  decl.any (fun p => strLower p.2 = strLower raw)

end StrEnum

/-! ### The value universe

A single inductive universe for the loosely-typed values the core moves
around: JSON builtins (null, booleans, integers, strings, arrays, objects),
plus the three normalized kinds the core adds — enumeration members,
timestamps and constructed records — plus an opaque constructor standing
for a Python object of any other, non-serializable type. -/

mutual
/-- A loosely-typed runtime value.  `enumMember` carries the member's
string form (`str(member)`; for `StrEnum` members that is the canonical
payload) and a flag telling whether the member belongs to the library's
`StrEnum` or to a plain standard-library `Enum`.  `record` carries the
declared fields in declaration order and the extra (unrecognized)
attributes in insertion order. -/
inductive Value where
  | null
  | bool (b : Bool)
  | int (n : Int)
  | str (s : String)
  | arr (xs : VList)
  | obj (fs : FList)
  | enumMember (isStrEnum : Bool) (strForm : String)
  | timestamp (t : Timestamp)
  | record (declared : FList) (extras : FList)
  | other (typeName : String)
deriving DecidableEq, Repr

/-- A list of values (the shape of a JSON array). -/
inductive VList where
  | nil
  | cons (v : Value) (tl : VList)
deriving DecidableEq, Repr

/-- An ordered association of field names to values (the shape of a JSON
object or of a keyword-argument mapping). -/
inductive FList where
  | nil
  | cons (name : String) (v : Value) (tl : FList)
deriving DecidableEq, Repr
end

namespace FList

/-- The keys of a mapping, in order. -/
def keys : FList → List String
  | .nil => []
  | .cons n _ tl => n :: keys tl

/-- First value bound to `k`, if any. -/
def lookup : FList → String → Option Value
  | .nil, _ => none
  | .cons n v tl, k => if n = k then some v else lookup tl k

/-- The entries whose keys do not belong to `names`, in order. -/
def withoutKeys : FList → List String → FList
  | .nil, _ => .nil
  | .cons n v tl, names =>
    if n ∈ names then withoutKeys tl names else .cons n v (withoutKeys tl names)

/-- Replace the value bound to `k` (first occurrence), keeping order. -/
def setKey : FList → String → Value → FList
  | .nil, _, _ => .nil
  | .cons n v tl, k, w => if n = k then .cons n w tl else .cons n v (setKey tl k w)

end FList

/-- Conversion from a Lean list of values. -/
def VList.ofList : List Value → VList
  | [] => .nil
  | v :: tl => .cons v (VList.ofList tl)

/-! ### Record base ("Model") -/

/-- Modelled from the spec: the non-fatal `UnknownAttribute` notification
(`UnknownModelAttributeWarning`) naming the offending key, emitted when
construction meets an unrecognized input key. -/
inductive ModelWarning where
  | unknownAttribute (key : String)
deriving DecidableEq, Repr

/-- Modelled from the spec: the "missing required field" failure of
construction. -/
inductive MissingField where
  | missingField (name : String)
deriving DecidableEq, Repr

/-- A declared field: its name, and its default value if the declaration
has one. -/
structure FieldDecl where
  name : String
  default : Option Value
deriving DecidableEq, Repr

/-- A declaration with no defaults for each name, in order. -/
def simpleDecl (names : List String) : List FieldDecl :=
  names.map (fun n => ⟨n, none⟩)

/-- The value a declared field receives from mapping `m`: the mapping's
value when the key is present, otherwise the declared default. -/
def declVal (f : FieldDecl) (m : FList) : Option Value :=
  match FList.lookup m f.name, f.default with
  | some v, _ => some v
  | none, d => d

/-- Modelled from the spec: the declared-field pass of construction —
fields are taken by name from the input in declaration order; a missing key
falls back to the declared default, and fails construction when there is
none. -/
def buildDeclared : List FieldDecl → FList → Except MissingField FList
  | [], _ => .ok .nil
  | f :: fs, m =>
    match declVal f m with
    | some v =>
      match buildDeclared fs m with
      | .ok tl => .ok (.cons f.name v tl)
      | .error e => .error e
    | none => .error (.missingField f.name)

/-- The declared-field list `buildDeclared` produces when it succeeds
(fields with neither input value nor default are skipped here; they make
`buildDeclared` fail instead). -/
def declToF : List FieldDecl → FList → FList
  | [], _ => .nil
  | f :: fs, m =>
    match declVal f m with
    | some v => .cons f.name v (declToF fs m)
    | none => declToF fs m

/-- Modelled from the spec: `Model.from_kwargs(m)` — declared fields taken
by name (defaults for missing keys, failure when a field has neither), any
unrecognized key stored as an extra attribute and reported through a
non-fatal `UnknownAttribute` warning naming it; construction still
succeeds. -/
def Model.fromKwargs (decl : List FieldDecl) (m : FList) :
    Except MissingField (Value × List ModelWarning) :=
  match buildDeclared decl m with
  | .error e => .error e
  | .ok d =>
    let extras := FList.withoutKeys m (decl.map FieldDecl.name)
    .ok (.record d extras, (FList.keys extras).map ModelWarning.unknownAttribute)

/-- Modelled from the spec: Python attribute access on a constructed
record — declared fields first, then the extra attributes captured from
unrecognized keys. -/
def Model.attr (v : Value) (k : String) : Option Value :=
  match v with
  | .record d e =>
    match FList.lookup d k with
    | some w => some w
    | none => FList.lookup e k
  | _ => none

mutual
/-- Modelled from the spec: `Model.asbuiltin()` — the built-in-type
projection.  Nested records and collections recurse, enumeration members
render as their canonical string, timestamps as their formatted string;
a record projects its declared fields (the extras are kept only as
attributes on the record object, see `test_unknown_attribute_passed`). -/
def Model.asbuiltin : Value → Value
  | .null => .null
  | .bool b => .bool b
  | .int n => .int n
  | .str s => .str s
  | .arr xs => .arr (Model.asbuiltinV xs)
  | .obj fs => .obj (Model.asbuiltinF fs)
  | .enumMember _ s => .str s
  | .timestamp t => .str t.toText
  | .record d _ => .obj (Model.asbuiltinF d)
  | .other t => .other t

/-- Element-wise built-in projection of an array. -/
def Model.asbuiltinV : VList → VList
  | .nil => .nil
  | .cons v tl => .cons (Model.asbuiltin v) (Model.asbuiltinV tl)

/-- Field-wise built-in projection of an object. -/
def Model.asbuiltinF : FList → FList
  | .nil => .nil
  | .cons n v tl => .cons n (Model.asbuiltin v) (Model.asbuiltinF tl)
end

mutual
/-- Is this value made of JSON builtins only (null, booleans, integers,
strings, arrays and objects of the same)? -/
def IsBuiltin : Value → Bool
  | .null => true
  | .bool _ => true
  | .int _ => true
  | .str _ => true
  | .arr xs => IsBuiltinV xs
  | .obj fs => IsBuiltinF fs
  | .enumMember _ _ => false
  | .timestamp _ => false
  | .record _ _ => false
  | .other _ => false

/-- Array version of `IsBuiltin`. -/
def IsBuiltinV : VList → Bool
  | .nil => true
  | .cons v tl => IsBuiltin v && IsBuiltinV tl

/-- Object version of `IsBuiltin`. -/
def IsBuiltinF : FList → Bool
  | .nil => true
  | .cons _ v tl => IsBuiltin v && IsBuiltinF tl
end

/-! ### JSON encoders -/

/-- Modelled from the spec: the standard encoder's "not serializable"
failure (Python's `TypeError: Object of type ... is not JSON serializable`),
naming the offending type. -/
inductive EncodeError where
  | notSerializable (typeName : String)
deriving DecidableEq, Repr

/-- JSON string escaping for the characters our value space can carry. -/
def escapeChar (c : Char) : List Char :=
  if c = '"' then ['\\', '"']
  else if c = '\\' then ['\\', '\\']
  else if c = '\n' then ['\\', 'n']
  else if c = '\t' then ['\\', 't']
  else if c = '\r' then ['\\', 'r']
  else [c]

/-- A JSON string literal: quotes around the escaped text. -/
def quoteStr (s : String) : String :=
  String.mk ('"' :: s.toList.foldr (fun c acc => escapeChar c ++ acc) ['"'])

mutual
/-- The standard JSON encoder (`json.dumps` with default separators): JSON
builtins only; enumeration members, timestamps, records and any other
object raise the "not serializable" error. -/
def encodeStd : Value → Except EncodeError String
  | .null => .ok "null"
  | .bool b => .ok (if b then "true" else "false")
  | .int n => .ok (toString n)
  | .str s => .ok (quoteStr s)
  | .arr xs =>
    match encodeStdV xs with
    | .ok parts => .ok ("[" ++ String.intercalate ", " parts ++ "]")
    | .error e => .error e
  | .obj fs =>
    match encodeStdF fs with
    | .ok parts => .ok ("\x7b" ++ String.intercalate ", " parts ++ "\x7d")
    | .error e => .error e
  | .enumMember _ _ => .error (.notSerializable "Enum")
  | .timestamp _ => .error (.notSerializable "Timestamp")
  | .record _ _ => .error (.notSerializable "Model")
  | .other t => .error (.notSerializable t)

/-- Standard encoding of array elements, left to right. -/
def encodeStdV : VList → Except EncodeError (List String)
  | .nil => .ok []
  | .cons v tl =>
    match encodeStd v with
    | .error e => .error e
    | .ok s =>
      match encodeStdV tl with
      | .error e => .error e
      | .ok parts => .ok (s :: parts)

/-- Standard encoding of object fields, left to right. -/
def encodeStdF : FList → Except EncodeError (List String)
  | .nil => .ok []
  | .cons n v tl =>
    match encodeStd v with
    | .error e => .error e
    | .ok s =>
      match encodeStdF tl with
      | .error e => .error e
      | .ok parts => .ok ((quoteStr n ++ ": " ++ s) :: parts)
end

mutual
/-- Modelled from the spec: the extended `JSONEncoder` — as the standard
encoder, plus: any enumeration member renders as its string form quoted,
a timestamp renders as its formatted string quoted, and a record renders as
the object of its declared fields (arbitrarily deep).  A value of any other
type raises the standard "not serializable" error unmodified. -/
def encodeExt : Value → Except EncodeError String
  | .null => .ok "null"
  | .bool b => .ok (if b then "true" else "false")
  | .int n => .ok (toString n)
  | .str s => .ok (quoteStr s)
  | .arr xs =>
    match encodeExtV xs with
    | .ok parts => .ok ("[" ++ String.intercalate ", " parts ++ "]")
    | .error e => .error e
  | .obj fs =>
    match encodeExtF fs with
    | .ok parts => .ok ("\x7b" ++ String.intercalate ", " parts ++ "\x7d")
    | .error e => .error e
  | .enumMember _ s => .ok (quoteStr s)
  | .timestamp t => .ok (quoteStr t.toText)
  | .record d _ =>
    match encodeExtF d with
    | .ok parts => .ok ("\x7b" ++ String.intercalate ", " parts ++ "\x7d")
    | .error e => .error e
  | .other t => .error (.notSerializable t)

/-- Extended encoding of array elements, left to right. -/
def encodeExtV : VList → Except EncodeError (List String)
  | .nil => .ok []
  | .cons v tl =>
    match encodeExt v with
    | .error e => .error e
    | .ok s =>
      match encodeExtV tl with
      | .error e => .error e
      | .ok parts => .ok (s :: parts)

/-- Extended encoding of object fields, left to right. -/
def encodeExtF : FList → Except EncodeError (List String)
  | .nil => .ok []
  | .cons n v tl =>
    match encodeExt v with
    | .error e => .error e
    | .ok s =>
      match encodeExtF tl with
      | .error e => .error e
      | .ok parts => .ok ((quoteStr n ++ ": " ++ s) :: parts)
end

/-- Modelled from the spec: `Model.json()` — the extended encoder applied
directly to the record graph. -/
def Model.json (v : Value) : Except EncodeError String := encodeExt v

/-! ### Pretty-print helper -/

/-- A value a pretty-print keyword option can take in the tests: `None`,
a boolean, an integer, or a string. -/
inductive PPVal where
  | pnone
  | pbool (b : Bool)
  | pint (n : Int)
  | pstr (s : String)
deriving DecidableEq, Repr

/-- First option bound to `k`, if any. -/
def assocPP : List (String × PPVal) → String → Option PPVal
  | [], _ => none
  | p :: tl, k => if p.1 = k then some p.2 else assocPP tl k

/-- Modelled from the spec: `Model.pprint(**options)` forwards the record's
built-in projection to the structure-aware `pprint` formatter together with
the options — `depth` (default `None`) and `compact` (default `True`) plus
any further keyword options, verbatim.  The result is the argument pair the
formatter is called with. -/
def Model.pprintCall (v : Value) (opts : List (String × PPVal)) :
    Value × List (String × PPVal) :=
  let depth := (assocPP opts "depth").getD .pnone
  let compact := (assocPP opts "compact").getD (.pbool true)
  let extra := opts.filter (fun p => ¬(p.1 = "depth" ∨ p.1 = "compact"))
  (Model.asbuiltin v, ("depth", depth) :: ("compact", compact) :: extra)

/-! ### Schema normalization hook (`__post_init__` pattern)

The schema modules in the excerpt (`category.py`, `album/full.py`) and the
test `Container` all normalize a list-of-mappings field into a list of
nested records with `from_kwargs` inside `__post_init__`. -/

/-- Normalize each mapping element of a list into a record of the given
declaration, collecting the element warnings in order.  Non-mapping
elements are left untouched (the spec and tests only exercise mapping
elements here). -/
def normalizeElems (inner : List FieldDecl) : VList →
    Except MissingField (VList × List ModelWarning)
  | .nil => .ok (.nil, [])
  | .cons v tl =>
    match v with
    | .obj fs =>
      match Model.fromKwargs inner fs with
      | .error e => .error e
      | .ok (r, ws) =>
        match normalizeElems inner tl with
        | .error e => .error e
        | .ok (rs, ws2) => .ok (.cons r rs, ws ++ ws2)
    | w =>
      match normalizeElems inner tl with
      | .error e => .error e
      | .ok (rs, ws2) => .ok (.cons w rs, ws2)

/-- Modelled from the spec: the post-construction normalization hook of a
record whose field `fieldName` holds a raw list of mappings — it replaces
that field by the list of nested records, in place. -/
def Model.postInitListField (inner : List FieldDecl) (fieldName : String) (v : Value) :
    Except MissingField (Value × List ModelWarning) :=
  match v with
  | .record d e =>
    match FList.lookup d fieldName with
    | some (.arr xs) =>
      match normalizeElems inner xs with
      | .error e2 => .error e2
      | .ok (rs, ws) => .ok (.record (FList.setKey d fieldName (.arr rs)) e, ws)
    | _ => .ok (.record d e, [])
  | w => .ok (w, [])

/-- Modelled from the spec: construction of a one-field container record
followed by its normalization hook, the `Container` pattern of
`test_asbuiltin_members_recursed_into` and of `CategoryPaging`. -/
def Model.containerFromKwargs (inner : List FieldDecl) (fieldName : String) (m : FList) :
    Except MissingField (Value × List ModelWarning) :=
  match Model.fromKwargs (simpleDecl [fieldName]) m with
  | .error e => .error e
  | .ok (r, ws) =>
    match Model.postInitListField inner fieldName r with
    | .error e => .error e
    | .ok (r2, ws2) => .ok (r2, ws ++ ws2)

/-! ### Standard JSON decoding

A plain recursive-descent decoder for the JSON fragment the core emits
(`json.loads` on such output), used to state that serialized records parse
back to the original mapping. -/

/-- Drop leading JSON whitespace. -/
def skipWs (cs : List Char) : List Char :=
  cs.dropWhile (fun c => c = ' ' || c = '\n' || c = '\t' || c = '\r')

/-- Read the remainder of a JSON string literal (the opening quote already
consumed), unescaping what `escapeChar` produces. -/
def readJStringAux : List Char → List Char → Option (String × List Char)
  | [], _ => none
  | '\\' :: c :: tl, acc =>
    if c = '"' then readJStringAux tl ('"' :: acc)
    else if c = '\\' then readJStringAux tl ('\\' :: acc)
    else if c = 'n' then readJStringAux tl ('\n' :: acc)
    else if c = 't' then readJStringAux tl ('\t' :: acc)
    else if c = 'r' then readJStringAux tl ('\r' :: acc)
    else none
  | '"' :: tl, acc => some (String.mk acc.reverse, tl)
  | c :: tl, acc => readJStringAux tl (c :: acc)

/-- Read a JSON integer (optional sign, decimal digits). -/
def readJInt (cs : List Char) : Option (Int × List Char) :=
  match cs with
  | '-' :: tl =>
    let ds := tl.takeWhile isDig
    if ds.length = 0 then none
    else some (-(digitsToNat ds : Int), tl.dropWhile isDig)
  | _ =>
    let ds := cs.takeWhile isDig
    if ds.length = 0 then none
    else some ((digitsToNat ds : Int), cs.dropWhile isDig)

mutual
/-- Decode one JSON value; `fuel` bounds the recursion depth. -/
def parseJVal : Nat → List Char → Option (Value × List Char)
  | 0, _ => none
  | fuel + 1, cs =>
    match skipWs cs with
    | 'n' :: 'u' :: 'l' :: 'l' :: tl => some (.null, tl)
    | 't' :: 'r' :: 'u' :: 'e' :: tl => some (.bool true, tl)
    | 'f' :: 'a' :: 'l' :: 's' :: 'e' :: tl => some (.bool false, tl)
    | '"' :: tl =>
      match readJStringAux tl [] with
      | some (s, r) => some (.str s, r)
      | none => none
    | '[' :: tl =>
      (match skipWs tl with
       | ']' :: r => some (.arr .nil, r)
       | _ =>
         match parseJElems fuel tl with
         | some (xs, r) => some (.arr xs, r)
         | none => none)
    | '\x7b' :: tl =>
      (match skipWs tl with
       | '\x7d' :: r => some (.obj .nil, r)
       | _ =>
         match parseJFields fuel tl with
         | some (fs, r) => some (.obj fs, r)
         | none => none)
    | rest =>
      match readJInt rest with
      | some (n, r) => some (.int n, r)
      | none => none

/-- Decode the non-empty element list of a JSON array, including the
closing bracket. -/
def parseJElems : Nat → List Char → Option (VList × List Char)
  | 0, _ => none
  | fuel + 1, cs =>
    match parseJVal fuel cs with
    | none => none
    | some (v, r) =>
      match skipWs r with
      | ',' :: tl =>
        match parseJElems fuel tl with
        | some (xs, r2) => some (.cons v xs, r2)
        | none => none
      | ']' :: tl => some (.cons v .nil, tl)
      | _ => none

/-- Decode the non-empty field list of a JSON object, including the
closing brace. -/
def parseJFields : Nat → List Char → Option (FList × List Char)
  | 0, _ => none
  | fuel + 1, cs =>
    match skipWs cs with
    | '"' :: tl =>
      match readJStringAux tl [] with
      | none => none
      | some (k, r) =>
        match skipWs r with
        | ':' :: r2 =>
          match parseJVal fuel r2 with
          | none => none
          | some (v, r3) =>
            match skipWs r3 with
            | ',' :: tl2 =>
              match parseJFields fuel tl2 with
              | some (fs, r4) => some (.cons k v fs, r4)
              | none => none
            | '\x7d' :: tl2 => some (.cons k v .nil, tl2)
            | _ => none
        | _ => none
    | _ => none
end

/-- Standard JSON decoding of a whole text: one value and nothing but
whitespace after it. -/
def jsonDecode (s : String) : Option Value :=
  match parseJVal (2 * s.length + 2) s.toList with
  | some (v, r) => if skipWs r = [] then some v else none
  | none => none





/-! ### Digit arithmetic lemmas -/

theorem isDig_iff {c : Char} : isDig c = true ↔ 48 ≤ c.toNat ∧ c.toNat ≤ 57 := by
  simp [isDig]

theorem digitVal_lt_ten {c : Char} (h : isDig c = true) : digitVal c < 10 := by
  rw [isDig_iff] at h
  simp only [digitVal]
  omega

theorem digitChar_digitVal {c : Char} (h : isDig c = true) : digitChar (digitVal c) = c := by
  rw [isDig_iff] at h
  have h48 : 48 + (c.toNat - 48) = c.toNat := by omega
  rw [digitChar, digitVal, h48, Char.ofNat_toNat]

theorem digitVal_digitChar {d : Nat} (h : d < 10) : digitVal (digitChar d) = d := by
  interval_cases d <;> decide

theorem isDig_digitChar {d : Nat} (h : d < 10) : isDig (digitChar d) = true := by
  interval_cases d <;> decide

theorem foldl_digits_shift (ds : List Char) (acc : Nat) :
    ds.foldl (fun a c => 10 * a + digitVal c) acc
      = acc * 10 ^ ds.length + ds.foldl (fun a c => 10 * a + digitVal c) 0 := by
  induction ds generalizing acc with
  | nil => simp
  | cons c tl ih =>
    simp only [List.foldl_cons, List.length_cons]
    rw [ih (10 * acc + digitVal c), ih (10 * 0 + digitVal c)]
    ring

theorem digitsToNat_cons (c : Char) (tl : List Char) :
    digitsToNat (c :: tl) = digitVal c * 10 ^ tl.length + digitsToNat tl := by
  simp only [digitsToNat, List.foldl_cons]
  rw [foldl_digits_shift tl (10 * 0 + digitVal c)]
  ring_nf

theorem digitsToNat_lt (ds : List Char) (h : ∀ c ∈ ds, isDig c = true) :
    digitsToNat ds < 10 ^ ds.length := by
  induction ds with
  | nil => simp [digitsToNat]
  | cons c tl ih =>
    rw [digitsToNat_cons, List.length_cons, pow_succ]
    have h1 : digitVal c < 10 := digitVal_lt_ten (h c (by simp))
    have h2 : digitsToNat tl < 10 ^ tl.length := ih (fun x hx => h x (by simp [hx]))
    nlinarith

theorem padDigits_length (w v : Nat) : (padDigits w v).length = w := by
  induction w generalizing v with
  | zero => rfl
  | succ w ih => simp [padDigits, ih]

theorem digitsToNat_padDigits (w v : Nat) (h : v < 10 ^ w) :
    digitsToNat (padDigits w v) = v := by
  induction w generalizing v with
  | zero =>
    simp only [pow_zero, Nat.lt_one_iff] at h
    simp [padDigits, digitsToNat, h]
  | succ w ih =>
    have hpos : 0 < 10 ^ w := Nat.pos_pow_of_pos w (by omega)
    rw [padDigits, digitsToNat_cons, padDigits_length,
      digitVal_digitChar ((Nat.div_lt_iff_lt_mul hpos).mpr (by rw [pow_succ] at h; omega)),
      ih _ (Nat.mod_lt _ hpos)]
    exact Nat.div_add_mod' v (10 ^ w)

theorem padDigits_all_dig (w v : Nat) (h : v < 10 ^ w) :
    ∀ c ∈ padDigits w v, isDig c = true := by
  induction w generalizing v with
  | zero => simp [padDigits]
  | succ w ih =>
    have hpos : 0 < 10 ^ w := Nat.pos_pow_of_pos w (by omega)
    intro c hc
    rw [padDigits] at hc
    rcases List.mem_cons.mp hc with h1 | h1
    · subst h1
      exact isDig_digitChar ((Nat.div_lt_iff_lt_mul hpos).mpr (by rw [pow_succ] at h; omega))
    · exact ih _ (Nat.mod_lt _ hpos) c h1

theorem padDigits_digitsToNat (ds : List Char) (h : ∀ c ∈ ds, isDig c = true) :
    padDigits ds.length (digitsToNat ds) = ds := by
  induction ds with
  | nil => rfl
  | cons c tl ih =>
    have hd : digitVal c < 10 := digitVal_lt_ten (h c (by simp))
    have htl : digitsToNat tl < 10 ^ tl.length := digitsToNat_lt tl (fun x hx => h x (by simp [hx]))
    rw [List.length_cons, digitsToNat_cons, padDigits]
    have hdiv : (digitVal c * 10 ^ tl.length + digitsToNat tl) / 10 ^ tl.length = digitVal c := by
      rw [mul_comm, Nat.mul_add_div (Nat.pos_pow_of_pos tl.length (by omega)),
        Nat.div_eq_of_lt htl]
      omega
    have hmod : (digitVal c * 10 ^ tl.length + digitsToNat tl) % 10 ^ tl.length
        = digitsToNat tl := by
      rw [mul_comm, Nat.mul_add_mod, Nat.mod_eq_of_lt htl]
    rw [hdiv, hmod, digitChar_digitVal (h c (by simp)), ih (fun x hx => h x (by simp [hx]))]

/-! ### Parser lemmas -/

theorem takeWhile_all_append {α : Type} {p : α → Bool} (ds : List α) (z : α) (r : List α)
    (h : ∀ c ∈ ds, p c = true) (hz : p z = false) :
    (ds ++ z :: r).takeWhile p = ds ∧ (ds ++ z :: r).dropWhile p = z :: r := by
  induction ds with
  | nil => simp [List.takeWhile, List.dropWhile, hz]
  | cons c tl ih =>
    have hc : p c = true := h c (by simp)
    have := ih (fun x hx => h x (by simp [hx]))
    simp [List.takeWhile, List.dropWhile, hc, this.1, this.2]

theorem mem_takeWhile {α : Type} {p : α → Bool} {l : List α} :
    ∀ c ∈ l.takeWhile p, p c = true := by
  induction l with
  | nil => simp [List.takeWhile]
  | cons x tl ih =>
    intro c hc
    rw [List.takeWhile] at hc
    rcases hx : p x with _ | _ <;> rw [hx] at hc
    · simp at hc
    · rcases List.mem_cons.mp hc with h1 | h1
      · rw [h1]; exact hx
      · exact ih c h1

theorem readFixed_append (ds rest : List Char) (acc : Nat)
    (h : ∀ c ∈ ds, isDig c = true) :
    readFixed ds.length acc (ds ++ rest)
      = .ok (ds.foldl (fun a c => 10 * a + digitVal c) acc, rest) := by
  induction ds generalizing acc with
  | nil => simp [readFixed]
  | cons c tl ih =>
    rw [List.length_cons, List.cons_append, readFixed]
    rw [h c (by simp)]
    simp only [List.foldl_cons]
    exact ih _ (fun x hx => h x (by simp [hx]))

theorem readFixed_pad (w v : Nat) (rest : List Char) (h : v < 10 ^ w) :
    readFixed w 0 (padDigits w v ++ rest) = .ok (v, rest) := by
  have hl := padDigits_length w v
  have := readFixed_append (padDigits w v) rest 0 (padDigits_all_dig w v h)
  rw [hl] at this
  rw [this]
  have : (padDigits w v).foldl (fun a c => 10 * a + digitVal c) 0 = v :=
    digitsToNat_padDigits w v h
  rw [this]

theorem readFixed_ok {w : Nat} {acc : Nat} {cs : List Char} {v : Nat} {rest : List Char}
    (h : readFixed w acc cs = .ok (v, rest)) :
    ∃ ds, cs = ds ++ rest ∧ ds.length = w ∧ (∀ c ∈ ds, isDig c = true)
      ∧ v = ds.foldl (fun a c => 10 * a + digitVal c) acc := by
  induction w generalizing acc cs with
  | zero =>
    rw [readFixed] at h
    injection h with h
    injection h with h1 h2
    exact ⟨[], by simp [h1, h2]⟩
  | succ w ih =>
    match cs with
    | [] => exact absurd h (by rw [readFixed]; simp)
    | c :: tl =>
      rw [readFixed] at h
      by_cases hc : isDig c
      · rw [hc] at h
        simp only [if_true] at h
        obtain ⟨ds, h1, h2, h3, h4⟩ := ih h
        refine ⟨c :: ds, by simp [h1], by simp [h2], ?_, by simp [h4]⟩
        intro x hx
        rcases List.mem_cons.mp hx with h5 | h5
        · rw [h5]; exact hc
        · exact h3 x h5
      · rw [eq_false_of_ne_true hc] at h
        simp at h

theorem readFixed_ok_pad {w : Nat} {cs : List Char} {v : Nat} {rest : List Char}
    (h : readFixed w 0 cs = .ok (v, rest)) :
    v < 10 ^ w ∧ cs = padDigits w v ++ rest := by
  obtain ⟨ds, h1, h2, h3, h4⟩ := readFixed_ok h
  have hv : v = digitsToNat ds := h4
  have hlt : digitsToNat ds < 10 ^ ds.length := digitsToNat_lt ds h3
  have hpad : padDigits ds.length (digitsToNat ds) = ds := padDigits_digitsToNat ds h3
  rw [h2] at hlt hpad
  rw [hv]
  exact ⟨hlt, by rw [hpad]; exact h1⟩

theorem litChar_cons_self (c : Char) (r : List Char) : litChar c (c :: r) = .ok r := by
  simp [litChar]

theorem litChar_ok {c : Char} {cs rest : List Char} (h : litChar c cs = .ok rest) :
    cs = c :: rest := by
  match cs with
  | [] => exact absurd h (by rw [litChar]; simp)
  | d :: tl =>
    rw [litChar] at h
    by_cases hd : d = c
    · rw [if_pos hd] at h
      injection h with h
      rw [hd, h]
    · rw [if_neg hd] at h
      exact absurd h (by simp)

theorem readTail_z (rest : List Char) : readTail ('Z' :: rest) = .ok (0, rest) := by
  simp [readTail]

theorem readTail_frac (ds rest : List Char) (h : ∀ c ∈ ds, isDig c = true)
    (h1 : 1 ≤ ds.length) (h6 : ds.length ≤ 6) :
    readTail ('.' :: (ds ++ 'Z' :: rest))
      = .ok (digitsToNat ds * 10 ^ (6 - ds.length), rest) := by
  have hz : isDig 'Z' = false := by decide
  have hspan := takeWhile_all_append ds 'Z' rest h hz
  rw [readTail]
  rw [if_neg (by decide : ¬('.' : Char) = 'Z'), if_pos rfl]
  simp only [hspan.1, hspan.2, litChar_cons_self]
  rw [if_pos ⟨h1, h6⟩]

theorem readTail_ok {cs : List Char} {us : Nat} {rest : List Char}
    (h : readTail cs = .ok (us, rest)) :
    (cs = 'Z' :: rest ∧ us = 0)
      ∨ ∃ ds, cs = '.' :: (ds ++ 'Z' :: rest) ∧ (∀ c ∈ ds, isDig c = true)
          ∧ 1 ≤ ds.length ∧ ds.length ≤ 6
          ∧ us = digitsToNat ds * 10 ^ (6 - ds.length) := by
  match cs with
  | [] => exact absurd h (by rw [readTail]; simp)
  | c :: tl =>
    rw [readTail] at h
    by_cases hz : c = 'Z'
    · rw [if_pos hz] at h
      injection h with h
      injection h with h1 h2
      exact Or.inl ⟨by rw [hz, h2], h1.symm⟩
    · rw [if_neg hz] at h
      by_cases hd : c = '.'
      · rw [if_pos hd] at h
        simp only [] at h
        by_cases hlen : 1 ≤ (tl.takeWhile isDig).length ∧ (tl.takeWhile isDig).length ≤ 6
        · rw [if_pos hlen] at h
          match hlit : litChar 'Z' (tl.dropWhile isDig) with
          | .error e => rw [hlit] at h; exact absurd h (by simp)
          | .ok r2 =>
            rw [hlit] at h
            injection h with h
            injection h with h1 h2
            refine Or.inr ⟨tl.takeWhile isDig, ?_, fun c hc => mem_takeWhile c hc,
              hlen.1, hlen.2, h1.symm⟩
            have htl : tl = tl.takeWhile isDig ++ tl.dropWhile isDig :=
              (List.takeWhile_append_dropWhile isDig tl).symm
            rw [hd, ← h2, ← litChar_ok hlit, ← htl]
        · rw [if_neg hlen] at h
          exact absurd h (by simp)
      · rw [if_neg hd] at h
        exact absurd h (by simp)

/-! ### Timestamp round-trip theorems -/

theorem readTail_fracChars (us : Nat) (h : us < 1000000) :
    readTail (fracChars us) = .ok (us, []) := by
  by_cases hus : us = 0
  · rw [fracChars, if_pos hus, readTail_z, hus]
  · rw [fracChars, if_neg hus]
    have h6 : us < 10 ^ 6 := by norm_num; omega
    have hfrac := readTail_frac (padDigits 6 us) [] (padDigits_all_dig 6 us h6)
      (by rw [padDigits_length]; omega) (by rw [padDigits_length])
    rw [hfrac, padDigits_length, digitsToNat_padDigits 6 us h6]
    norm_num

theorem exceptBind_ok {e a b : Type} {ma : Except e a} {f : a → Except e b} {v : b}
    (h : ma >>= f = .ok v) : ∃ x, ma = .ok x ∧ f x = .ok v := by
  match hma : ma with
  | .error err => exact absurd h (by simp [Bind.bind, Except.bind])
  | .ok x => exact ⟨x, rfl, by simpa [Bind.bind, Except.bind] using h⟩

theorem parseChars_format (t : Timestamp) (ht : t.InRange) :
    parseChars (formatChars t) = .ok t := by
  obtain ⟨y, mo, d, hh, mi, s, us⟩ := t
  simp only [Timestamp.InRange] at ht
  obtain ⟨h1, h2, h3, h4, h5, h6, h7, h8, h9, h10⟩ := ht
  simp only [formatChars]
  simp only [parseChars, bind, Except.bind]
  rw [readFixed_pad 4 y _ (by norm_num; omega)]
  dsimp only
  rw [litChar_cons_self]
  dsimp only
  rw [readFixed_pad 2 mo _ (by norm_num; omega)]
  dsimp only
  rw [litChar_cons_self]
  dsimp only
  rw [readFixed_pad 2 d _ (by norm_num; omega)]
  dsimp only
  rw [litChar_cons_self]
  dsimp only
  rw [readFixed_pad 2 hh _ (by norm_num; omega)]
  dsimp only
  rw [litChar_cons_self]
  dsimp only
  rw [readFixed_pad 2 mi _ (by norm_num; omega)]
  dsimp only
  rw [litChar_cons_self]
  dsimp only
  rw [readFixed_pad 2 s _ (by norm_num; omega)]
  dsimp only
  rw [readTail_fracChars us h10]
  dsimp only
  rw [if_pos ⟨rfl, h1, h3, h4, h5, h6, h7, h8, h9⟩]

theorem parseChars_ok {cs : List Char} {t : Timestamp} (h : parseChars cs = .ok t) :
    t.InRange ∧ ∃ tail,
      cs = padDigits 4 t.year ++ '-' :: (padDigits 2 t.month ++ '-' :: (padDigits 2 t.day
        ++ 'T' :: (padDigits 2 t.hour ++ ':' :: (padDigits 2 t.minute
        ++ ':' :: (padDigits 2 t.second ++ tail)))))
      ∧ ((tail = ['Z'] ∧ t.microsecond = 0)
         ∨ ∃ ds, tail = '.' :: (ds ++ ['Z']) ∧ (∀ c ∈ ds, isDig c = true)
             ∧ 1 ≤ ds.length ∧ ds.length ≤ 6
             ∧ t.microsecond = digitsToNat ds * 10 ^ (6 - ds.length)) := by
  simp only [parseChars] at h
  obtain ⟨⟨y, cs1⟩, hy, h⟩ := exceptBind_ok h
  obtain ⟨cs2, hl1, h⟩ := exceptBind_ok h
  obtain ⟨⟨mo, cs3⟩, hmo, h⟩ := exceptBind_ok h
  obtain ⟨cs4, hl2, h⟩ := exceptBind_ok h
  obtain ⟨⟨d, cs5⟩, hd, h⟩ := exceptBind_ok h
  obtain ⟨cs6, hl3, h⟩ := exceptBind_ok h
  obtain ⟨⟨hh, cs7⟩, hhh, h⟩ := exceptBind_ok h
  obtain ⟨cs8, hl4, h⟩ := exceptBind_ok h
  obtain ⟨⟨mi, cs9⟩, hmi, h⟩ := exceptBind_ok h
  obtain ⟨cs10, hl5, h⟩ := exceptBind_ok h
  obtain ⟨⟨sec, cs11⟩, hsec, h⟩ := exceptBind_ok h
  obtain ⟨⟨us, cs12⟩, hus, h⟩ := exceptBind_ok h
  dsimp only at hl1 hl2 hl3 hl4 hl5 hus h
  by_cases hcond : cs12 = [] ∧ 1 ≤ y ∧ 1 ≤ mo ∧ mo ≤ 12 ∧ 1 ≤ d ∧ d ≤ 31
      ∧ hh ≤ 23 ∧ mi ≤ 59 ∧ sec ≤ 59
  swap
  · rw [if_neg hcond] at h
    exact absurd h (by simp)
  rw [if_pos hcond] at h
  injection h with h
  subst h
  obtain ⟨hnil, hy1, hmo1, hmo2, hd1, hd2, hh1, hmi1, hsec1⟩ := hcond
  subst hnil
  obtain ⟨hyb, hycs⟩ := readFixed_ok_pad hy
  obtain ⟨hmob, hmocs⟩ := readFixed_ok_pad hmo
  obtain ⟨hdb, hdcs⟩ := readFixed_ok_pad hd
  obtain ⟨hhhb, hhhcs⟩ := readFixed_ok_pad hhh
  obtain ⟨hmib, hmics⟩ := readFixed_ok_pad hmi
  obtain ⟨hsecb, hseccs⟩ := readFixed_ok_pad hsec
  have hl1e := litChar_ok hl1
  have hl2e := litChar_ok hl2
  have hl3e := litChar_ok hl3
  have hl4e := litChar_ok hl4
  have hl5e := litChar_ok hl5
  have htail := readTail_ok hus
  constructor
  · refine ⟨hy1, (show y ≤ 9999 by norm_num at hyb; omega), hmo1, hmo2, hd1, hd2,
      hh1, hmi1, hsec1, ?_⟩
    show us < 1000000
    rcases htail with ⟨_, hus0⟩ | ⟨ds, _, hdig, hlen1, hlen6, husv⟩
    · omega
    · have hdlt : digitsToNat ds < 10 ^ ds.length := digitsToNat_lt ds hdig
      have hm : digitsToNat ds * 10 ^ (6 - ds.length)
          < 10 ^ ds.length * 10 ^ (6 - ds.length) :=
        Nat.mul_lt_mul_of_lt_of_le hdlt (le_refl _) (Nat.pos_pow_of_pos _ (by omega))
      rw [← pow_add] at hm
      have h66 : ds.length + (6 - ds.length) = 6 := by omega
      rw [h66] at hm
      norm_num at hm
      omega
  · refine ⟨cs11, ?_, ?_⟩
    · show cs = padDigits 4 y ++ '-' :: (padDigits 2 mo ++ '-' :: (padDigits 2 d
        ++ 'T' :: (padDigits 2 hh ++ ':' :: (padDigits 2 mi
        ++ ':' :: (padDigits 2 sec ++ cs11)))))
      rw [hycs, hl1e, hmocs, hl2e, hdcs, hl3e, hhhcs, hl4e, hmics, hl5e, hseccs]
    · show cs11 = ['Z'] ∧ us = 0
        ∨ ∃ ds, cs11 = '.' :: (ds ++ ['Z']) ∧ (∀ c ∈ ds, isDig c = true)
            ∧ 1 ≤ ds.length ∧ ds.length ≤ 6
            ∧ us = digitsToNat ds * 10 ^ (6 - ds.length)
      rcases htail with ⟨hz, hus0⟩ | ⟨ds, hds, hdig, hlen1, hlen6, husv⟩
      · exact Or.inl ⟨hz, hus0⟩
      · exact Or.inr ⟨ds, hds, hdig, hlen1, hlen6, husv⟩

/-! ### Helpers about dots and string reconstruction -/

theorem strMk_toList (s : String) : String.mk s.toList = s := rfl

theorem isDig_ne_dot {c : Char} (h : isDig c = true) : (c != '.') = true := by
  rw [bne_iff_ne]
  intro he
  rw [isDig_iff] at h
  rw [he] at h
  revert h
  decide

theorem dropWhile_append_all {α : Type} {p : α → Bool} (xs ys : List α)
    (h : ∀ c ∈ xs, p c = true) : (xs ++ ys).dropWhile p = ys.dropWhile p := by
  induction xs with
  | nil => rfl
  | cons c tl ih =>
    rw [List.cons_append, List.dropWhile_cons, if_pos (by rw [h c (by simp)])]
    exact ih (fun x hx => h x (by simp [hx]))

theorem dropDot_pad (w v : Nat) (r : List Char) (hv : v < 10 ^ w) :
    (padDigits w v ++ r).dropWhile (fun c => c != '.')
      = r.dropWhile (fun c => c != '.') :=
  dropWhile_append_all _ _ (fun c hc => isDig_ne_dot (padDigits_all_dig w v hv c hc))

theorem dropDot_sep (c : Char) (r : List Char) (hc : (c != '.') = true) :
    (c :: r).dropWhile (fun c => c != '.') = r.dropWhile (fun c => c != '.') := by
  rw [List.dropWhile_cons, if_pos (by rw [hc])]

theorem dropDot_dot (r : List Char) :
    ('.' :: r).dropWhile (fun c => c != '.') = '.' :: r := by
  rw [List.dropWhile_cons, if_neg (by simp)]

/-- Claim C6 (amended): for every valid timestamp string `s`, formatting the
parsed timestamp reproduces `s` exactly when `s` has no fractional digits,
and also when `s` has 6 fractional digits of nonzero value; and for every
valid `s`, `parse (format (parse s)) = parse s`.  (The original claim also
covered 6-digit all-zero fractions, which no formatter can reproduce, since
parsing identifies them with the fraction-free form — see the
counterexample.) -/
theorem timestamp_format_roundtrip_amended :
    (∀ s t, Timestamp.fromString s = .ok t → ('.' : Char) ∉ s.toList →
      Timestamp.toText t = s)
    ∧ (∀ s t, Timestamp.fromString s = .ok t → (fracRun s).length = 6 →
      t.microsecond ≠ 0 → Timestamp.toText t = s)
    ∧ (∀ s t, Timestamp.fromString s = .ok t →
      Timestamp.fromString (Timestamp.toText t) = .ok t) := by
  refine ⟨?_, ?_, ?_⟩
  · intro s t h hdot
    have h2 : parseChars s.toList = .ok t := h
    obtain ⟨hin, tail, hcs, htail⟩ := parseChars_ok h2
    rcases htail with ⟨hz, hus0⟩ | ⟨ds, hds, _, _, _, _⟩
    · rw [Timestamp.toText, ← strMk_toList s]
      congr 1
      rw [hcs, hz, formatChars, fracChars, if_pos hus0]
    · exact absurd (by rw [hcs, hds]; simp) hdot
  · intro s t h hlen hne
    have h2 : parseChars s.toList = .ok t := h
    obtain ⟨hin, tail, hcs, htail⟩ := parseChars_ok h2
    obtain ⟨hy1, hy2, hmo1, hmo2, hd1, hd2, hh1, hmi1, hs1, husb⟩ := hin
    rcases htail with ⟨hz, hus0⟩ | ⟨ds, hds, hdig, hdl1, hdl6, husv⟩
    · exact absurd hus0 hne
    · have hdrop : s.toList.dropWhile (fun c => c != '.') = '.' :: (ds ++ ['Z']) := by
        rw [hcs, hds]
        rw [dropDot_pad 4 t.year _ (by norm_num; omega)]
        rw [dropDot_sep '-' _ (by decide)]
        rw [dropDot_pad 2 t.month _ (by norm_num; omega)]
        rw [dropDot_sep '-' _ (by decide)]
        rw [dropDot_pad 2 t.day _ (by norm_num; omega)]
        rw [dropDot_sep 'T' _ (by decide)]
        rw [dropDot_pad 2 t.hour _ (by norm_num; omega)]
        rw [dropDot_sep ':' _ (by decide)]
        rw [dropDot_pad 2 t.minute _ (by norm_num; omega)]
        rw [dropDot_sep ':' _ (by decide)]
        rw [dropDot_pad 2 t.second _ (by norm_num; omega)]
        exact dropDot_dot _
      have hfr : fracRun s = ds := by
        rw [fracRun, hdrop, List.drop_one, List.tail_cons]
        exact (takeWhile_all_append ds 'Z' [] hdig (by decide)).1
      rw [hfr] at hlen
      have husval : t.microsecond = digitsToNat ds := by
        rw [husv, hlen]
        norm_num
      have hpad : padDigits 6 t.microsecond = ds := by
        rw [husval, ← hlen]
        exact padDigits_digitsToNat ds hdig
      rw [Timestamp.toText, ← strMk_toList s]
      congr 1
      rw [hcs, hds, formatChars, fracChars, if_neg hne, hpad]
  · intro s t h
    have h2 : parseChars s.toList = .ok t := h
    exact parseChars_format t (parseChars_ok h2).1

/-- Claim C6, counterexample: `"2019-01-01T12:00:00.000000Z"` is a valid
timestamp string with six fractional digits, but formatting its parse
yields `"2019-01-01T12:00:00Z"`, a different string — so
`format (parse s) = s` fails for it. -/
theorem timestamp_format_roundtrip_counterexample :
    Timestamp.fromString "2019-01-01T12:00:00.000000Z"
        = .ok ⟨2019, 1, 1, 12, 0, 0, 0⟩
      ∧ Timestamp.toText ⟨2019, 1, 1, 12, 0, 0, 0⟩ = "2019-01-01T12:00:00Z"
      ∧ ("2019-01-01T12:00:00Z" : String) ≠ "2019-01-01T12:00:00.000000Z" :=
  ⟨by decide, by decide, by decide⟩

/-- Witness for the amended round-trip claim at concrete inputs: one string
without fraction, one with a six-digit nonzero fraction, and the
parse-format-parse identity at the first. -/
theorem timestamp_format_roundtrip_amended_witness :
    Timestamp.toText ⟨2019, 1, 1, 12, 0, 0, 0⟩ = "2019-01-01T12:00:00Z"
      ∧ Timestamp.toText ⟨2019, 1, 1, 12, 0, 0, 500000⟩ = "2019-01-01T12:00:00.500000Z"
      ∧ Timestamp.fromString (Timestamp.toText ⟨2019, 1, 1, 12, 0, 0, 0⟩)
          = .ok ⟨2019, 1, 1, 12, 0, 0, 0⟩ :=
  ⟨timestamp_format_roundtrip_amended.1 "2019-01-01T12:00:00Z" _ (by decide) (by decide),
   timestamp_format_roundtrip_amended.2.1 "2019-01-01T12:00:00.500000Z" _
     (by decide) (by decide) (by decide),
   timestamp_format_roundtrip_amended.2.2 "2019-01-01T12:00:00Z" _ (by decide)⟩

/-- Claim C7: parsing any string that lacks the `T` or the `Z` of the
accepted grammar — in particular the bare date `"2019-01-01"` — fails with
a `FormatError`. -/
theorem timestamp_invalid_rejected :
    (∀ s, ('T' : Char) ∉ s.toList → Timestamp.fromString s = .error .invalidFormat)
    ∧ (∀ s, ('Z' : Char) ∉ s.toList → Timestamp.fromString s = .error .invalidFormat)
    ∧ Timestamp.fromString "2019-01-01" = .error .invalidFormat := by
  refine ⟨?_, ?_, by decide⟩
  · intro s hT
    match he : Timestamp.fromString s with
    | .error e => cases e; rfl
    | .ok t =>
      have h2 : parseChars s.toList = .ok t := he
      obtain ⟨_, tail, hcs, _⟩ := parseChars_ok h2
      exact absurd (by rw [hcs]; simp : ('T' : Char) ∈ s.toList) hT
  · intro s hZ
    match he : Timestamp.fromString s with
    | .error e => cases e; rfl
    | .ok t =>
      have h2 : parseChars s.toList = .ok t := he
      obtain ⟨_, tail, hcs, htail⟩ := parseChars_ok h2
      rcases htail with ⟨hz, _⟩ | ⟨ds, hds, _, _, _, _⟩
      · exact absurd (by rw [hcs, hz]; simp : ('Z' : Char) ∈ s.toList) hZ
      · exact absurd (by rw [hcs, hds]; simp : ('Z' : Char) ∈ s.toList) hZ

/-- Witness for the rejection claim at the bare date from the test. -/
theorem timestamp_invalid_rejected_witness :
    Timestamp.fromString "2019-01-01" = .error .invalidFormat :=
  timestamp_invalid_rejected.1 "2019-01-01" (by decide)

/-! ### StrEnum claim theorems -/

/-- Claim C4: for a case-insensitive enumeration, lookup by any case
variant `v` of a declared member name `n` returns the same member as lookup
by `n`; and when no declared name matches the key regardless of case,
lookup fails with the "no such member" error naming the key. -/
theorem strEnum_lookup_case_insensitive :
    (∀ (decl : List (String × String)) (n v : String),
      n ∈ decl.map Prod.fst → strLower v = strLower n →
      StrEnum.lookup decl v = StrEnum.lookup decl n)
    ∧ (∀ (decl : List (String × String)) (key : String),
      (∀ p ∈ decl, strLower p.1 ≠ strLower key) →
      StrEnum.lookup decl key = .error (.noSuchMember key)) := by
  constructor
  · intro decl n v hn hcase
    rw [StrEnum.lookup, StrEnum.lookup, hcase]
    match hf : decl.find? (fun p => strLower p.1 = strLower n) with
    | some q => rw [hf]
    | none =>
      obtain ⟨p, hp, hpn⟩ := List.mem_map.mp hn
      rw [List.find?_eq_none] at hf
      have := hf p hp
      rw [hpn] at this
      simp at this
  · intro decl key hnone
    rw [StrEnum.lookup]
    have hf : decl.find? (fun p => strLower p.1 = strLower key) = none := by
      rw [List.find?_eq_none]
      intro p hp
      simp only [decide_eq_true_eq]
      exact hnone p hp
    rw [hf]

/-- Witness for C4 at the enumerations of the tests. -/
theorem strEnum_lookup_case_insensitive_witness :
    StrEnum.lookup [("a", "A"), ("b", "B")] "A"
        = StrEnum.lookup [("a", "A"), ("b", "B")] "a"
      ∧ StrEnum.lookup [("a", "A")] "z" = .error (.noSuchMember "z") :=
  ⟨strEnum_lookup_case_insensitive.1 _ "a" "A" (by decide) (by decide),
   strEnum_lookup_case_insensitive.2 _ "z" (by decide)⟩

/-- Claim C5: lookup returns declared pairs untouched, so payload case is
never altered by lookups; membership testing succeeds for every declared
payload under any casing of the probe; and iterating yields exactly the
declared payloads — concretely the all-caps enumeration of the tests keeps
`["A", "B", "C"]`. -/
theorem strEnum_payload_preserved :
    (∀ (decl : List (String × String)) (key n p : String),
      StrEnum.lookup decl key = .ok (n, p) → (n, p) ∈ decl)
    ∧ (∀ (decl : List (String × String)) (q : String × String), q ∈ decl →
      ∀ v, strLower v = strLower q.2 → StrEnum.containsValue decl v = true)
    ∧ StrEnum.values [("a", "A"), ("b", "B"), ("c", "C")] = ["A", "B", "C"] := by
  refine ⟨?_, ?_, by decide⟩
  · intro decl key n p h
    rw [StrEnum.lookup] at h
    match hf : decl.find? (fun q => strLower q.1 = strLower key) with
    | some q =>
      rw [hf] at h
      injection h with h
      rw [← h]
      exact List.mem_of_find?_eq_some hf
    | none =>
      rw [hf] at h
      exact absurd h (by simp)
  · intro decl q hq v hcase
    rw [StrEnum.containsValue, List.any_eq_true]
    refine ⟨q, hq, ?_⟩
    simp only [decide_eq_true_eq]
    rw [hcase]

/-- Witness for C5 at the all-caps enumeration of the tests. -/
theorem strEnum_payload_preserved_witness :
    ((("a", "A") : String × String) ∈ ([("a", "A"), ("b", "B")] : List (String × String)))
      ∧ StrEnum.containsValue [("a", "A"), ("b", "B")] "a" = true :=
  ⟨by decide, strEnum_payload_preserved.2.1 _ ("a", "A") (by decide) "a" (by decide)⟩

/-! ### Model construction lemmas -/

/-- Structural induction for `FList` alone (its values untouched). -/
theorem flistInd {motive : FList → Prop} (hnil : motive .nil)
    (hcons : ∀ n v tl, motive tl → motive (.cons n v tl)) : ∀ fs, motive fs
  | .nil => hnil
  | .cons n v tl => hcons n v tl (flistInd hnil hcons tl)

theorem buildDeclared_eq (decl : List FieldDecl) (m : FList)
    (h : ∀ f ∈ decl, declVal f m ≠ none) :
    buildDeclared decl m = .ok (declToF decl m) := by
  induction decl with
  | nil => rfl
  | cons f fs ih =>
    rw [buildDeclared, declToF]
    match hv : declVal f m with
    | none => exact absurd hv (h f (by simp))
    | some v =>
      rw [ih (fun g hg => h g (by simp [hg]))]

theorem declVal_simple (n : String) (m : FList) :
    declVal ⟨n, none⟩ m = FList.lookup m n := by
  rw [declVal]
  cases FList.lookup m n <;> rfl

theorem simpleDecl_cons (n : String) (tl : List String) :
    simpleDecl (n :: tl) = ⟨n, none⟩ :: simpleDecl tl := rfl

theorem declToF_agree (names : List String) (m1 m2 : FList)
    (h : ∀ n ∈ names, FList.lookup m1 n = FList.lookup m2 n) :
    declToF (simpleDecl names) m1 = declToF (simpleDecl names) m2 := by
  induction names with
  | nil => rfl
  | cons n tl ih =>
    rw [simpleDecl_cons, declToF, declToF, declVal_simple, declVal_simple,
      h n (by simp)]
    have ihe := ih (fun k hk => h k (by simp [hk]))
    cases FList.lookup m2 n <;> rw [ihe]

theorem lookup_cons_self (n : String) (v : Value) (tl : FList) :
    FList.lookup (.cons n v tl) n = some v := by
  rw [FList.lookup, if_pos rfl]

theorem lookup_cons_ne (n k : String) (v : Value) (tl : FList) (h : n ≠ k) :
    FList.lookup (.cons n v tl) k = FList.lookup tl k := by
  rw [FList.lookup, if_neg h]

theorem declToF_self (m : FList) (h : (FList.keys m).Nodup) :
    declToF (simpleDecl (FList.keys m)) m = m := by
  induction m using flistInd with
  | hnil => rfl
  | hcons n v tl ih =>
    rw [FList.keys] at h ⊢
    rw [List.nodup_cons] at h
    rw [simpleDecl_cons, declToF, declVal_simple, lookup_cons_self]
    have hagree : declToF (simpleDecl (FList.keys tl)) (FList.cons n v tl)
        = declToF (simpleDecl (FList.keys tl)) tl :=
      declToF_agree _ _ _ (fun k hk =>
        lookup_cons_ne n k v tl (fun he => h.1 (he ▸ hk)))
    rw [hagree, ih h.2]

theorem lookup_some_of_mem_keys (m : FList) (k : String) (h : k ∈ FList.keys m) :
    ∃ v, FList.lookup m k = some v := by
  induction m using flistInd with
  | hnil => simp [FList.keys] at h
  | hcons n v tl ih =>
    rw [FList.keys] at h
    by_cases he : n = k
    · exact ⟨v, by rw [FList.lookup, if_pos he]⟩
    · rw [FList.lookup, if_neg he]
      exact ih (by rcases List.mem_cons.mp h with h1 | h1
                   · exact absurd h1.symm he
                   · exact h1)

theorem withoutKeys_nil (m : FList) (names : List String)
    (h : ∀ k ∈ FList.keys m, k ∈ names) : FList.withoutKeys m names = .nil := by
  induction m using flistInd with
  | hnil => rfl
  | hcons n v tl ih =>
    rw [FList.withoutKeys, if_pos (h n (by rw [FList.keys]; simp))]
    exact ih (fun k hk => h k (by rw [FList.keys]; simp [hk]))

theorem fromKwargs_exact (names : List String) (m : FList)
    (hk : FList.keys m = names) (hnd : names.Nodup) :
    Model.fromKwargs (simpleDecl names) m = .ok (.record m .nil, []) := by
  subst hk
  have hb : buildDeclared (simpleDecl (FList.keys m)) m = .ok m := by
    rw [buildDeclared_eq _ _ ?_, declToF_self m hnd]
    intro f hf
    simp only [simpleDecl, List.mem_map] at hf
    obtain ⟨n, hn, hfn⟩ := hf
    rw [← hfn, declVal_simple]
    obtain ⟨v, hv⟩ := lookup_some_of_mem_keys m n hn
    rw [hv]
    simp
  rw [Model.fromKwargs, hb]
  have hw : FList.withoutKeys m (List.map FieldDecl.name (simpleDecl (FList.keys m)))
      = .nil := by
    refine withoutKeys_nil m _ (fun k hk2 => ?_)
    simp only [simpleDecl, List.map_map, List.mem_map]
    exact ⟨k, hk2, rfl⟩
  rw [hw]
  rfl

/-! ### Built-in projection identity on builtin values -/

theorem asbuiltin_id (v : Value) (h : IsBuiltin v = true) : Model.asbuiltin v = v := by
  revert h
  induction v using Value.rec
    (motive_2 := fun l => IsBuiltinV l = true → Model.asbuiltinV l = l)
    (motive_3 := fun l => IsBuiltinF l = true → Model.asbuiltinF l = l) <;>
  simp_all [Model.asbuiltin, Model.asbuiltinV, Model.asbuiltinF,
    IsBuiltin, IsBuiltinV, IsBuiltinF]

theorem asbuiltinF_id (fs : FList) (h : IsBuiltinF fs = true) :
    Model.asbuiltinF fs = fs := by
  revert h
  induction fs using FList.rec
    (motive_1 := fun v => IsBuiltin v = true → Model.asbuiltin v = v)
    (motive_2 := fun l => IsBuiltinV l = true → Model.asbuiltinV l = l) <;>
  simp_all [Model.asbuiltin, Model.asbuiltinV, Model.asbuiltinF,
    IsBuiltin, IsBuiltinV, IsBuiltinF]

theorem normalizeElems_objs (names : List String) (ms : List FList)
    (h : ∀ mi ∈ ms, FList.keys mi = names ∧ names.Nodup ∧ IsBuiltinF mi = true) :
    normalizeElems (simpleDecl names) (VList.ofList (ms.map Value.obj))
      = .ok (VList.ofList (ms.map (fun mi => Value.record mi .nil)), []) := by
  induction ms with
  | nil => rfl
  | cons mi tl ih =>
    simp only [List.map_cons, VList.ofList]
    rw [normalizeElems]
    obtain ⟨hk, hnd, _⟩ := h mi (by simp)
    rw [fromKwargs_exact names mi hk hnd, ih (fun x hx => h x (by simp [hx]))]
    rfl

theorem asbuiltinV_records (ms : List FList)
    (h : ∀ mi ∈ ms, IsBuiltinF mi = true) :
    Model.asbuiltinV (VList.ofList (ms.map (fun mi => Value.record mi .nil)))
      = VList.ofList (ms.map Value.obj) := by
  induction ms with
  | nil => rfl
  | cons mi tl ih =>
    simp only [List.map_cons, VList.ofList]
    rw [Model.asbuiltinV, Model.asbuiltin, asbuiltinF_id mi (h mi (by simp)),
      ih (fun x hx => h x (by simp [hx]))]

/-! ### Claim theorems about the record base -/

/-- Claim C1: constructing a record from a mapping whose keys are exactly
the declared fields and rendering it with the built-in projection
reconstructs the mapping (with no warnings emitted); the same holds through
a normalization hook that turns a field holding a list of nested mappings
into nested records — the projection recurses and reconstructs the original
mapping; and the spec's JSON instance: the record built from `{"i": 1}`
serializes to JSON text that standard JSON decoding parses back to
`{"i": 1}`. -/
theorem model_mapping_roundtrip :
    (∀ (names : List String) (m : FList), FList.keys m = names → names.Nodup →
      IsBuiltinF m = true →
      Model.fromKwargs (simpleDecl names) m = .ok (.record m .nil, [])
        ∧ Model.asbuiltin (.record m .nil) = .obj m)
    ∧ (∀ (names : List String) (ms : List FList),
      (∀ mi ∈ ms, FList.keys mi = names ∧ names.Nodup ∧ IsBuiltinF mi = true) →
      ∃ r, Model.containerFromKwargs (simpleDecl names) "d"
            (.cons "d" (.arr (VList.ofList (ms.map Value.obj))) .nil) = .ok (r, [])
        ∧ Model.asbuiltin r
            = .obj (.cons "d" (.arr (VList.ofList (ms.map Value.obj))) .nil))
    ∧ (∃ r, Model.fromKwargs (simpleDecl ["i"]) (.cons "i" (.int 1) .nil)
          = .ok (r, [])
        ∧ Model.json r = .ok "\x7b\"i\": 1\x7d"
        ∧ jsonDecode "\x7b\"i\": 1\x7d" = some (.obj (.cons "i" (.int 1) .nil))) := by
  refine ⟨?_, ?_, ?_⟩
  · intro names m hk hnd hb
    exact ⟨fromKwargs_exact names m hk hnd,
      by rw [Model.asbuiltin, asbuiltinF_id m hb]⟩
  · intro names ms h
    refine ⟨.record (.cons "d" (.arr (VList.ofList
      (ms.map (fun mi => Value.record mi .nil)))) .nil) .nil, ?_, ?_⟩
    · rw [Model.containerFromKwargs, fromKwargs_exact ["d"]
        (.cons "d" (.arr (VList.ofList (ms.map Value.obj))) .nil) rfl (by simp)]
      dsimp only
      rw [Model.postInitListField, lookup_cons_self]
      dsimp only
      rw [normalizeElems_objs names ms h]
      dsimp only
      rw [FList.setKey, if_pos rfl]
      rfl
    · rw [Model.asbuiltin, Model.asbuiltinF, Model.asbuiltin,
        asbuiltinV_records ms (fun mi hmi => (h mi hmi).2.2), Model.asbuiltinF]
  · exact ⟨.record (.cons "i" (.int 1) .nil) .nil, by decide, by decide, by decide⟩

/-- Witness for C1 at the mappings of the tests: `{"i": 1}` for the flat
part and `{"d": [{"i": 1}, {"i": 2}]}` for the nested part. -/
theorem model_mapping_roundtrip_witness :
    (Model.fromKwargs (simpleDecl ["i"]) (.cons "i" (.int 1) .nil)
        = .ok (.record (.cons "i" (.int 1) .nil) .nil, [])
      ∧ Model.asbuiltin (.record (.cons "i" (.int 1) .nil) .nil)
        = .obj (.cons "i" (.int 1) .nil))
    ∧ ∃ r, Model.containerFromKwargs (simpleDecl ["i"]) "d"
          (.cons "d" (.arr (VList.ofList
            [.obj (.cons "i" (.int 1) .nil), .obj (.cons "i" (.int 2) .nil)])) .nil)
          = .ok (r, [])
      ∧ Model.asbuiltin r = .obj (.cons "d" (.arr (VList.ofList
          [.obj (.cons "i" (.int 1) .nil), .obj (.cons "i" (.int 2) .nil)])) .nil) := by
  constructor
  · exact model_mapping_roundtrip.1 ["i"] (.cons "i" (.int 1) .nil) (by decide)
      (by decide) (by decide)
  · simpa using model_mapping_roundtrip.2.1 ["i"]
      [.cons "i" (.int 1) .nil, .cons "i" (.int 2) .nil] (by decide)
/-- Claim C2: constructing the one-field record type from
`{"i": 1, "u": 2}` succeeds — it is not aborted — and emits exactly one
non-fatal `UnknownAttribute` warning naming `"u"`; the resulting record
exposes attribute `u = 2`; and the JSON serialization of the record does
not contain the key `"u"` (the character `u` does not even occur in it). -/
theorem model_unknown_attribute :
    Model.fromKwargs (simpleDecl ["i"])
        (.cons "i" (.int 1) (.cons "u" (.int 2) .nil))
        = .ok (.record (.cons "i" (.int 1) .nil) (.cons "u" (.int 2) .nil),
            [.unknownAttribute "u"])
      ∧ Model.attr (.record (.cons "i" (.int 1) .nil) (.cons "u" (.int 2) .nil)) "u"
        = some (.int 2)
      ∧ Model.json (.record (.cons "i" (.int 1) .nil) (.cons "u" (.int 2) .nil))
        = .ok "\x7b\"i\": 1\x7d"
      ∧ ('u' : Char) ∉ "\x7b\"i\": 1\x7d".toList :=
  ⟨by decide, by decide, by decide, by decide⟩

/-! ### Extra-attribute bookkeeping lemmas -/

theorem keys_declToF (decl : List FieldDecl) (m : FList) :
    ∀ k ∈ FList.keys (declToF decl m), k ∈ decl.map FieldDecl.name := by
  induction decl with
  | nil => simp [declToF, FList.keys]
  | cons f fs ih =>
    intro k hk
    rw [declToF] at hk
    match hv : declVal f m with
    | some v =>
      rw [hv, FList.keys] at hk
      rcases List.mem_cons.mp hk with h1 | h1
      · simp [h1]
      · simp only [List.map_cons, List.mem_cons]
        exact Or.inr (ih k h1)
    | none =>
      rw [hv] at hk
      simp only [List.map_cons, List.mem_cons]
      exact Or.inr (ih k hk)

theorem lookup_none_of_not_mem_keys (fs : FList) (k : String)
    (h : k ∉ FList.keys fs) : FList.lookup fs k = none := by
  induction fs using flistInd with
  | hnil => rfl
  | hcons n v tl ih =>
    rw [FList.keys] at h
    rw [FList.lookup, if_neg (fun he => h (by simp [he]))]
    exact ih (fun hk => h (by simp [hk]))

theorem lookup_withoutKeys (m : FList) (names : List String) (k : String)
    (hk : k ∉ names) :
    FList.lookup (FList.withoutKeys m names) k = FList.lookup m k := by
  induction m using flistInd with
  | hnil => rfl
  | hcons n v tl ih =>
    rw [FList.withoutKeys]
    by_cases hn : n ∈ names
    · rw [if_pos hn, ih, FList.lookup,
        if_neg (show ¬(n = k) from fun he => hk (he ▸ hn))]
    · rw [if_neg hn, FList.lookup, FList.lookup]
      by_cases he : n = k
      · rw [if_pos he, if_pos he]
      · rw [if_neg he, if_neg he, ih]

theorem mem_keys_withoutKeys (m : FList) (names : List String) (k : String)
    (h1 : k ∈ FList.keys m) (h2 : k ∉ names) :
    k ∈ FList.keys (FList.withoutKeys m names) := by
  induction m using flistInd with
  | hnil => simp [FList.keys] at h1
  | hcons n v tl ih =>
    rw [FList.keys] at h1
    rw [FList.withoutKeys]
    by_cases hn : n ∈ names
    · rcases List.mem_cons.mp h1 with he | he
      · exact absurd (he ▸ hn) h2
      · rw [if_pos hn]
        exact ih he
    · rw [if_neg hn, FList.keys]
      rcases List.mem_cons.mp h1 with he | he
      · simp [he]
      · simp [ih he]

theorem mem_keys_of_lookup_some (m : FList) (k : String) (v : Value)
    (h : FList.lookup m k = some v) : k ∈ FList.keys m := by
  induction m using flistInd with
  | hnil => simp [FList.lookup] at h
  | hcons n w tl ih =>
    rw [FList.lookup] at h
    rw [FList.keys]
    by_cases he : n = k
    · simp [he]
    · rw [if_neg he] at h
      simp [ih h]

/-- Claim C3, counterexample: for the record built from
`{"i": 1, "u": 2}` against the one-field type, the extra field `u` is
preserved on the record (attribute access returns `2`) but it is absent
from the built-in projection and from the JSON output — refuting the
claim that extras are included in both. -/
theorem model_extras_excluded_counterexample :
    Model.asbuiltin (.record (.cons "i" (.int 1) .nil) (.cons "u" (.int 2) .nil))
        = .obj (.cons "i" (.int 1) .nil)
      ∧ ("u" ∉ FList.keys (.cons "i" (.int 1) .nil))
      ∧ Model.json (.record (.cons "i" (.int 1) .nil) (.cons "u" (.int 2) .nil))
        = .ok "\x7b\"i\": 1\x7d"
      ∧ ('u' : Char) ∉ "\x7b\"i\": 1\x7d".toList
      ∧ Model.attr (.record (.cons "i" (.int 1) .nil) (.cons "u" (.int 2) .nil)) "u"
        = some (.int 2) :=
  ⟨by decide, by decide, by decide, by decide, by decide⟩

/-- Claim C3 (amended): every extra field of the input mapping is preserved
verbatim on the constructed record — attribute access returns its value and
the `UnknownAttribute` warning channel names it — but extras are omitted
from the built-in projection (which covers the declared fields only) and
from the JSON output (which reads the declared fields only, so it is
unchanged if the extras are dropped). -/
theorem model_extras_preserved_amended
    (decl : List FieldDecl) (m : FList) (k : String) (v : Value)
    (hall : ∀ f ∈ decl, declVal f m ≠ none)
    (hk : k ∉ decl.map FieldDecl.name)
    (hv : FList.lookup m k = some v) :
    ∃ d e ws, Model.fromKwargs decl m = .ok (.record d e, ws)
      ∧ Model.attr (.record d e) k = some v
      ∧ ModelWarning.unknownAttribute k ∈ ws
      ∧ Model.asbuiltin (.record d e) = .obj (Model.asbuiltinF d)
      ∧ k ∉ FList.keys d
      ∧ Model.json (.record d e) = Model.json (.record d .nil) := by
  refine ⟨declToF decl m, FList.withoutKeys m (decl.map FieldDecl.name),
    (FList.keys (FList.withoutKeys m (decl.map FieldDecl.name))).map
      ModelWarning.unknownAttribute, ?_, ?_, ?_, rfl, ?_, rfl⟩
  · rw [Model.fromKwargs, buildDeclared_eq decl m hall]
  · rw [Model.attr,
      lookup_none_of_not_mem_keys _ k (fun hmem => hk (keys_declToF decl m k hmem)),
      lookup_withoutKeys m _ k hk, hv]
  · exact List.mem_map.mpr ⟨k,
      mem_keys_withoutKeys m _ k (mem_keys_of_lookup_some m k v hv) hk, rfl⟩
  · exact fun hmem => hk (keys_declToF decl m k hmem)

/-- Witness for the amended C3 at the test's mapping `{"i": 1, "u": 2}`. -/
theorem model_extras_preserved_amended_witness :
    ∃ d e ws, Model.fromKwargs (simpleDecl ["i"])
        (.cons "i" (.int 1) (.cons "u" (.int 2) .nil)) = .ok (.record d e, ws)
      ∧ Model.attr (.record d e) "u" = some (.int 2)
      ∧ ModelWarning.unknownAttribute "u" ∈ ws
      ∧ Model.asbuiltin (.record d e) = .obj (Model.asbuiltinF d)
      ∧ "u" ∉ FList.keys d
      ∧ Model.json (.record d e) = Model.json (.record d .nil) :=
  model_extras_preserved_amended (simpleDecl ["i"])
    (.cons "i" (.int 1) (.cons "u" (.int 2) .nil)) "u" (.int 2)
    (by decide) (by decide) (by decide)

/-! ### Encoder claim theorems -/

theorem encodeExt_eq_std (v : Value) (h : IsBuiltin v = true) :
    encodeExt v = encodeStd v := by
  revert h
  induction v using Value.rec
    (motive_2 := fun l => IsBuiltinV l = true → encodeExtV l = encodeStdV l)
    (motive_3 := fun l => IsBuiltinF l = true → encodeExtF l = encodeStdF l) <;>
  simp_all [encodeExt, encodeStd, encodeExtV, encodeStdV, encodeExtF, encodeStdF,
    IsBuiltin, IsBuiltinV, IsBuiltinF]

/-- Claim C8: the extended encoder renders every enumeration member as its
string form in quotes and every timestamp as its formatted string in
quotes, also nested inside a record serialized through the record's JSON
operation; on builtin JSON values it encodes exactly as the standard
encoder; and on a value of any other type it returns the standard
"not serializable" error unmodified. -/
theorem jsonEncoder_extended :
    (∀ (b : Bool) (s : String), encodeExt (.enumMember b s) = .ok (quoteStr s))
    ∧ (∀ t : Timestamp, encodeExt (.timestamp t) = .ok (quoteStr t.toText))
    ∧ (∀ v : Value, IsBuiltin v = true → encodeExt v = encodeStd v)
    ∧ (∀ name : String, encodeExt (.other name) = .error (.notSerializable name)
        ∧ encodeStd (.other name) = .error (.notSerializable name))
    ∧ Model.json (.record (.cons "v" (.enumMember true "a") .nil) .nil)
        = .ok "\x7b\"v\": \"a\"\x7d"
    ∧ Model.json (.record (.cons "v" (.timestamp ⟨2019, 1, 1, 12, 0, 0, 0⟩) .nil) .nil)
        = .ok "\x7b\"v\": \"2019-01-01T12:00:00Z\"\x7d" :=
  ⟨fun _ _ => rfl, fun _ => rfl, encodeExt_eq_std, fun _ => ⟨rfl, rfl⟩,
   by decide, by decide⟩

/-- Witness for C8's builtin-agreement part at the dictionary of the test
`test_default_types_preserved`. -/
theorem jsonEncoder_extended_witness :
    encodeExt (.obj (.cons "items" (.str "in") (.cons "this" (.int 1) .nil)))
      = encodeStd (.obj (.cons "items" (.str "in") (.cons "this" (.int 1) .nil))) :=
  jsonEncoder_extended.2.2.1 _ (by decide)

/-- Claim C9: the extended encoder special-cases members of any enumeration
type, not only the library's own string enumeration: a member of a plain
standard-library `Enum` (flag `false`; its values need not be strings, and
its string form `str(member)` is `EnumName.memberName`) encodes to that
string form in quotes instead of raising the not-serializable error —
concretely `"enum.a"` for the member of the test. -/
theorem jsonEncoder_plain_enum :
    (∀ s : String, encodeExt (.enumMember false s) = .ok (quoteStr s))
    ∧ encodeExt (.enumMember false (plainEnumStr "enum" "a")) = .ok "\"enum.a\"" :=
  ⟨fun _ => rfl, by decide⟩

/-! ### Pretty-print claim theorem -/

theorem assocPP_filter (opts : List (String × PPVal)) (k : String)
    (hk1 : k ≠ "depth") (hk2 : k ≠ "compact") :
    assocPP (opts.filter (fun p => ¬(p.1 = "depth" ∨ p.1 = "compact"))) k
      = assocPP opts k := by
  induction opts with
  | nil => rfl
  | cons p tl ih =>
    rw [List.filter_cons]
    by_cases hp : p.1 = "depth" ∨ p.1 = "compact"
    · rw [if_neg (by simp [hp]), ih, assocPP,
        if_neg (fun he => by rcases hp with h | h
                             · exact hk1 (he ▸ h)
                             · exact hk2 (he ▸ h))]
    · rw [if_pos (by simp [hp]), assocPP, assocPP]
      by_cases he : p.1 = k
      · rw [if_pos he, if_pos he]
      · rw [if_neg he, if_neg he, ih]

/-- Claim C10: calling the pretty-print helper with no options invokes the
structure-aware formatter on the record's built-in projection with exactly
the defaults `depth = None` and `compact = True`; and when keyword options
are supplied — including ones unknown to the core such as
`kw = "argument"` — exactly the supplied options are forwarded in place of
the defaults: the forwarded option mapping agrees with the supplied one on
every key whenever the caller supplies both `depth` and `compact`. -/
theorem model_pprint_forwarding :
    Model.pprintCall (.record (.cons "i" (.int 1) .nil) .nil) []
        = (.obj (.cons "i" (.int 1) .nil),
            [("depth", .pnone), ("compact", .pbool true)])
    ∧ Model.pprintCall (.record (.cons "i" (.int 1) .nil) .nil)
          [("compact", .pbool false), ("depth", .pnone), ("kw", .pstr "argument")]
        = (.obj (.cons "i" (.int 1) .nil),
            [("depth", .pnone), ("compact", .pbool false), ("kw", .pstr "argument")])
    ∧ (∀ (r : Value) (opts : List (String × PPVal)),
        (assocPP opts "depth").isSome = true → (assocPP opts "compact").isSome = true →
        (Model.pprintCall r opts).1 = Model.asbuiltin r
          ∧ ∀ k, assocPP (Model.pprintCall r opts).2 k = assocPP opts k) := by
  refine ⟨by decide, by decide, ?_⟩
  intro r opts hd hc
  refine ⟨rfl, fun k => ?_⟩
  obtain ⟨dv, hdv⟩ := Option.isSome_iff_exists.mp hd
  obtain ⟨cv, hcv⟩ := Option.isSome_iff_exists.mp hc
  show assocPP (("depth", (assocPP opts "depth").getD .pnone)
      :: ("compact", (assocPP opts "compact").getD (.pbool true))
      :: opts.filter (fun p => ¬(p.1 = "depth" ∨ p.1 = "compact"))) k
    = assocPP opts k
  by_cases h1 : k = "depth"
  · rw [h1, assocPP, if_pos rfl, hdv]
    rfl
  · rw [assocPP, if_neg (fun he => h1 he.symm)]
    by_cases h2 : k = "compact"
    · rw [h2, assocPP, if_pos rfl, hcv]
      rfl
    · rw [assocPP, if_neg (fun he => h2 he.symm)]
      exact assocPP_filter opts k h1 h2

/-- Witness for C10's forwarding part at the keyword options of the test
`test_keyword_arguments_passed_to_pprint`. -/
theorem model_pprint_forwarding_witness :
    assocPP (Model.pprintCall (.record (.cons "i" (.int 1) .nil) .nil)
        [("compact", .pbool false), ("depth", .pnone), ("kw", .pstr "argument")]).2 "kw"
      = some (.pstr "argument") := by
  have h := (model_pprint_forwarding.2.2 (.record (.cons "i" (.int 1) .nil) .nil)
    [("compact", .pbool false), ("depth", .pnone), ("kw", .pstr "argument")]
    (by decide) (by decide)).2 "kw"
  rw [h]
  decide

end Tekore
